import Mathlib

/-!
# The pursuit step of `src/enemy.cpp`

`updateEnemy` moves a non-fixed enemy towards the camera at speed `0.4f`,
scaled by the elapsed time.

The C++ code computes with `float`, the IEEE 754 binary32 format.  A `float`
is modelled as a real number (the value of a finite float), an infinity with
its sign, or NaN.  Every arithmetic operation computes the exact real result
and rounds it with `round32`: to the nearest binary32 value, ties to the even
significand, with gradual underflow, and to an infinity on overflow.  Zeros
carry no sign (the one zero is read as `+0`); in `updateEnemy` the only
divisor is a square root of a sum of squares, whose zero is `+0`.
-/

/-! ## Numbers -/

/-- A C++ `float` (binary32): a finite value, an infinity (`neg` is its sign
bit) or NaN. -/
inductive float where
  | fin (r : ℝ)
  | inf (neg : Bool)
  | nan

/-- The exponent of the unit in the last place of the binary32 values around
`r`: a significand of 24 bits, and `2 ^ (-149)` for the subnormal range. -/
noncomputable def ulpExp (r : ℝ) : ℤ := max (Int.log 2 |r| - 23) (-149)

/-- Rounding to the nearest integer, ties to even. -/
noncomputable def roundEven (q : ℝ) : ℤ :=
  if q - ⌊q⌋ < 1 / 2 then ⌊q⌋
  else if 1 / 2 < q - ⌊q⌋ then ⌊q⌋ + 1
  else if ⌊q⌋ % 2 = 0 then ⌊q⌋ else ⌊q⌋ + 1

/-- Rounding of a real number to binary32, round to nearest, ties to even: the
result of every correctly rounded operation whose exact result is `r`. -/
noncomputable def round32 (r : ℝ) : float :=
  if (2 : ℝ) ^ (128 : ℤ) ≤ |(roundEven (r / 2 ^ ulpExp r) : ℝ) * 2 ^ ulpExp r| then
    float.inf (decide (r < 0))
  else
    float.fin ((roundEven (r / 2 ^ ulpExp r) : ℝ) * 2 ^ ulpExp r)

namespace float

/-- Addition of floats, `a + b`. -/
noncomputable def add : float → float → float
  | fin a, fin b => round32 (a + b)
  | fin _, inf s => inf s
  | inf s, fin _ => inf s
  | inf s, inf s' => if s = s' then inf s else nan
  | _, _ => nan

/-- Subtraction of floats, `a - b`. -/
noncomputable def sub : float → float → float
  | fin a, fin b => round32 (a - b)
  | fin _, inf s => inf (!s)
  | inf s, fin _ => inf s
  | inf s, inf s' => if s = s' then nan else inf s
  | _, _ => nan

/-- Multiplication of floats, `a * b`. -/
noncomputable def mul : float → float → float
  | fin a, fin b => round32 (a * b)
  | fin a, inf s => if a = 0 then nan else inf (xor (decide (a < 0)) s)
  | inf s, fin b => if b = 0 then nan else inf (xor s (decide (b < 0)))
  | inf s, inf s' => inf (xor s s')
  | _, _ => nan

/-- Division of floats, `a / b`: `0 / 0` is NaN, another finite value divided
by zero is an infinity, a finite value divided by an infinity is zero. -/
noncomputable def div : float → float → float
  | fin a, fin b =>
    if b = 0 then (if a = 0 then nan else inf (decide (a < 0))) else round32 (a / b)
  | fin _, inf _ => fin 0
  | inf s, fin b => inf (xor s (decide (b < 0)))
  | inf _, inf _ => nan
  | _, _ => nan

/-- Square root, `sqrt(a)` of `<cmath>` converted to `float`: NaN on a negative
argument. -/
noncomputable def sqrt : float → float
  | fin a => if a < 0 then nan else round32 (Real.sqrt a)
  | inf false => inf false
  | inf true => nan
  | nan => nan

noncomputable instance : Add float := ⟨add⟩
noncomputable instance : Sub float := ⟨sub⟩
noncomputable instance : Mul float := ⟨mul⟩
noncomputable instance : Div float := ⟨div⟩

end float

/-! ## Vectors (`glm::vec4`) -/

/-- The type `glm::vec4`: four `float` components. -/
structure vec4 where
  x : float
  y : float
  z : float
  w : float

namespace vec4

/-- Component-wise difference, glm `operator-(vec4, vec4)`. -/
noncomputable def sub (a b : vec4) : vec4 := ⟨a.x - b.x, a.y - b.y, a.z - b.z, a.w - b.w⟩

/-- Component-wise sum, glm `operator+=(vec4)`. -/
noncomputable def add (a b : vec4) : vec4 := ⟨a.x + b.x, a.y + b.y, a.z + b.z, a.w + b.w⟩

/-- Product with a scalar, glm `operator*(vec4, float)`. -/
noncomputable def smul (a : vec4) (s : float) : vec4 := ⟨a.x * s, a.y * s, a.z * s, a.w * s⟩

/-- Quotient by a scalar, glm `operator/(vec4, float)`. -/
noncomputable def sdiv (a : vec4) (s : float) : vec4 := ⟨a.x / s, a.y / s, a.z / s, a.w / s⟩

noncomputable instance : Sub vec4 := ⟨sub⟩
noncomputable instance : Add vec4 := ⟨add⟩
noncomputable instance : HMul vec4 float vec4 := ⟨smul⟩
noncomputable instance : HDiv vec4 float vec4 := ⟨sdiv⟩

/-- The vector with the finite components `x y z w`. -/
def ofReal (x y z w : ℝ) : vec4 := ⟨.fin x, .fin y, .fin z, .fin w⟩

end vec4

/-! ## The entity -/

/-- Modelled from the spec: the declaration of `Enemy` (in `enemy.h`) is
not part of the sources; `updateEnemy` uses its members `pos` and `fixed`,
which the spec describes as the position and the boolean immovability
flag of an entity. -/
structure Enemy where
  pos : vec4
  fixed : Bool

/-- The function `updateEnemy` of `src/enemy.cpp`; the entity behind the
pointer `e` is passed in and the entity after the call is returned.  The
literal `0.4f` is the binary32 value nearest to `0.4`. -/
noncomputable def updateEnemy (e : Enemy) (camera_pos : vec4) (timeElapsed : float) : Enemy :=
  if !e.fixed then
    let d := camera_pos - e.pos
    let d := d / float.sqrt (d.x * d.x + d.y * d.y + d.z * d.z)
    { e with pos := e.pos + d * round32 0.4 * timeElapsed }
  else
    e

/-- The divisor of `updateEnemy`: the expression `sqrt(d.x*d.x + d.y*d.y +
d.z*d.z)` with `d = camera_pos - e->pos`, by which the function divides `d`. -/
noncomputable def divisor (pos camera_pos : vec4) : float :=
  float.sqrt ((camera_pos - pos).x * (camera_pos - pos).x
    + (camera_pos - pos).y * (camera_pos - pos).y
    + (camera_pos - pos).z * (camera_pos - pos).z)

/-! ## Exact steps -/

/-- A real number is a binary32 value: rounding leaves it as it is. -/
def isFloat32 (r : ℝ) : Prop := round32 r = float.fin r

/-- The value of the literal `0.4f`: the binary32 value nearest to `0.4`. -/
noncomputable def speed32 : ℝ := 13421773 / 33554432

/-- The Euclidean length of the spatial vector `(dx, dy, dz)`. -/
noncomputable def magnitude (dx dy dz : ℝ) : ℝ := Real.sqrt (dx * dx + dy * dy + dz * dz)

/-- The magnitude of `(dx, dy, dz)` is computed without rounding: the three
squares, the two sums and the square root are binary32 values. -/
def ExactNorm (dx dy dz : ℝ) : Prop :=
  isFloat32 (dx * dx) ∧ isFloat32 (dy * dy) ∧ isFloat32 (dz * dz)
    ∧ isFloat32 (dx * dx + dy * dy) ∧ isFloat32 (dx * dx + dy * dy + dz * dz)
    ∧ isFloat32 (magnitude dx dy dz)

/-- The displacement `d / m * 0.4f * t` of one coordinate is computed without
rounding: the quotient and the two products are binary32 values. -/
def ExactDelta (d m t : ℝ) : Prop :=
  isFloat32 (d / m) ∧ isFloat32 (d / m * speed32) ∧ isFloat32 (d / m * speed32 * t)

/-- One coordinate of the step from `p` towards `c` is computed without
rounding: the difference, the displacement and the sum. -/
def ExactCoord (p c m t : ℝ) : Prop :=
  isFloat32 (c - p) ∧ ExactDelta (c - p) m t ∧ isFloat32 (p + (c - p) / m * speed32 * t)

/-- Every binary32 operation that `updateEnemy` performs for the spatial
coordinates of the step from `(px, py, pz)` towards `(cx, cy, cz)` with the
elapsed time `t` is exact: its exact result is a binary32 value. -/
def ExactStep (px py pz cx cy cz t : ℝ) : Prop :=
  ExactNorm (cx - px) (cy - py) (cz - pz)
    ∧ ExactCoord px cx (magnitude (cx - px) (cy - py) (cz - pz)) t
    ∧ ExactCoord py cy (magnitude (cx - px) (cy - py) (cz - pz)) t
    ∧ ExactCoord pz cz (magnitude (cx - px) (cy - py) (cz - pz)) t

theorem roundEven_eq_of_near (q : ℝ) (n : ℤ) (h : |q - n| < 1 / 2) : roundEven q = n := by
  rw [abs_lt] at h
  unfold roundEven
  rcases le_or_lt (n : ℝ) q with hq | hq
  · have hf : ⌊q⌋ = n := by
      rw [Int.floor_eq_iff]
      exact ⟨hq, by linarith⟩
    rw [hf, if_pos (by linarith)]
  · have hf : ⌊q⌋ = n - 1 := by
      rw [Int.floor_eq_iff]
      push_cast
      exact ⟨by linarith, by linarith⟩
    rw [hf]
    push_cast
    rw [if_neg (by linarith), if_pos (by linarith)]
    ring

theorem roundEven_intCast (n : ℤ) : roundEven (n : ℝ) = n :=
  roundEven_eq_of_near _ n (by simp)

theorem ulpExp_eq (r : ℝ) (k : ℤ) (hlo : (2 : ℝ) ^ k ≤ |r|) (hhi : |r| < (2 : ℝ) ^ (k + 1)) :
    ulpExp r = max (k - 23) (-149) := by
  have hpos : 0 < |r| := lt_of_lt_of_le (by positivity) hlo
  have h1 : k ≤ Int.log 2 |r| := by
    rw [← Int.zpow_le_iff_le_log (by norm_num) hpos]
    simpa using hlo
  have h2 : Int.log 2 |r| < k + 1 := by
    rw [← Int.lt_zpow_iff_log_lt (by norm_num) hpos]
    simpa using hhi
  have : Int.log 2 |r| = k := by omega
  unfold ulpExp
  rw [this]

/-- The value of `round32 r` when the rounded value is finite: `k` is the binary
exponent of `r`, `E` the exponent of its last place and `n` the nearest
multiple. -/
theorem round32_eq (r : ℝ) (k E n : ℤ) (hlo : (2 : ℝ) ^ k ≤ |r|) (hhi : |r| < (2 : ℝ) ^ (k + 1))
    (hE : max (k - 23) (-149) = E) (hn : |r / 2 ^ E - n| < 1 / 2)
    (hfin : |(n : ℝ) * 2 ^ E| < (2 : ℝ) ^ (128 : ℤ)) :
    round32 r = float.fin ((n : ℝ) * 2 ^ E) := by
  unfold round32
  rw [ulpExp_eq r k hlo hhi, hE, roundEven_eq_of_near _ n hn, if_neg (not_le.mpr hfin)]

theorem round32_zero : round32 0 = float.fin 0 := by
  unfold round32
  have h : roundEven ((0 : ℝ) / 2 ^ ulpExp 0) = 0 := by
    rw [zero_div]
    exact_mod_cast roundEven_intCast 0
  rw [h]
  simp
  positivity

/-- Every number `m * 2 ^ e` with `|m| < 2 ^ 24` and `-149 ≤ e ≤ 104` is a
binary32 value. -/
theorem isFloat32_mul_zpow (m e : ℤ) (hm : |m| < 2 ^ 24) (he : -149 ≤ e) (he2 : e ≤ 104) :
    isFloat32 ((m : ℝ) * 2 ^ e) := by
  unfold isFloat32
  rcases eq_or_ne m 0 with rfl | hm0
  · simp [round32_zero]
  have h2 : (0 : ℝ) < 2 := by norm_num
  have hmR : |(m : ℝ)| < 2 ^ (24 : ℤ) := by
    have : ((|m| : ℤ) : ℝ) < ((2 ^ 24 : ℤ) : ℝ) := by exact_mod_cast hm
    rw [Int.cast_abs] at this
    norm_num at this ⊢
    exact this
  have habs : |(m : ℝ) * 2 ^ e| = |(m : ℝ)| * 2 ^ e := by
    rw [abs_mul, abs_of_pos (zpow_pos h2 e)]
  have hpos : 0 < |(m : ℝ) * 2 ^ e| := by
    rw [habs]
    exact mul_pos (abs_pos.mpr (by exact_mod_cast hm0)) (zpow_pos h2 e)
  have hlt : |(m : ℝ) * 2 ^ e| < (2 : ℝ) ^ (24 + e) := by
    rw [habs, zpow_add₀ h2.ne.symm]
    exact mul_lt_mul_of_pos_right hmR (zpow_pos h2 e)
  have hlog : Int.log 2 |(m : ℝ) * 2 ^ e| < 24 + e := by
    rw [← Int.lt_zpow_iff_log_lt (by norm_num) hpos]
    simpa using hlt
  have hE : ulpExp ((m : ℝ) * 2 ^ e) ≤ e := by
    unfold ulpExp
    exact max_le (by omega) he
  unfold round32
  generalize ulpExp ((m : ℝ) * 2 ^ e) = E at hE
  obtain ⟨j, hj⟩ : ∃ j : ℕ, e = E + j := ⟨(e - E).toNat, by omega⟩
  have hz : (2 : ℝ) ^ e = 2 ^ E * 2 ^ (j : ℤ) := by
    rw [← zpow_add₀ h2.ne.symm, ← hj]
  have hq : (m : ℝ) * 2 ^ e / 2 ^ E = ((m * 2 ^ j : ℤ) : ℝ) := by
    rw [hz]
    push_cast
    field_simp
    ring
  have hv : ((m * 2 ^ j : ℤ) : ℝ) * 2 ^ E = (m : ℝ) * 2 ^ e := by
    rw [← hq]
    field_simp
  rw [hq, roundEven_intCast, hv, if_neg]
  rw [not_le]
  calc |(m : ℝ) * 2 ^ e| < (2 : ℝ) ^ (24 + e) := hlt
    _ ≤ (2 : ℝ) ^ (128 : ℤ) := zpow_le_zpow_right₀ (by norm_num) (by omega)

/-- Rounding never gives NaN, and a number that is not negative is rounded to a
finite value that is not negative or to the positive infinity. -/
theorem round32_nonneg (r : ℝ) (hr : 0 ≤ r) :
    (∃ v : ℝ, 0 ≤ v ∧ round32 r = float.fin v) ∨ round32 r = float.inf false := by
  unfold round32
  split_ifs with h
  · right
    rw [decide_eq_false (not_lt.mpr hr)]
  · left
    refine ⟨_, ?_, rfl⟩
    apply mul_nonneg _ (zpow_pos (by norm_num) _).le
    have hq : 0 ≤ r / 2 ^ ulpExp r := div_nonneg hr (zpow_pos (by norm_num) _).le
    have hfl : (0 : ℤ) ≤ ⌊r / 2 ^ ulpExp r⌋ := Int.floor_nonneg.mpr hq
    have : (0 : ℤ) ≤ roundEven (r / 2 ^ ulpExp r) := by
      unfold roundEven
      split_ifs <;> omega
    exact_mod_cast this

/-! ## Evaluation of the operations -/

namespace float

theorem fin_add_fin (a b : ℝ) : fin a + fin b = round32 (a + b) := rfl
theorem fin_sub_fin (a b : ℝ) : fin a - fin b = round32 (a - b) := rfl
theorem fin_mul_fin (a b : ℝ) : fin a * fin b = round32 (a * b) := rfl
theorem nan_add (a : float) : nan + a = nan := rfl
theorem nan_mul (a : float) : nan * a = nan := rfl
theorem add_nan (a : float) : a + nan = nan := by cases a <;> rfl
theorem mul_nan (a : float) : a * nan = nan := by cases a <;> rfl

theorem fin_div_fin (a b : ℝ) :
    fin a / fin b
      = if b = 0 then (if a = 0 then nan else inf (decide (a < 0))) else round32 (a / b) := rfl

theorem fin_div_fin_of_ne (a : ℝ) {b : ℝ} (hb : b ≠ 0) : fin a / fin b = round32 (a / b) := by
  rw [fin_div_fin, if_neg hb]

theorem zero_div_zero : fin 0 / fin 0 = nan := by
  rw [fin_div_fin, if_pos rfl, if_pos rfl]

theorem fin_div_inf (a : ℝ) (s : Bool) : fin a / inf s = fin 0 := rfl

theorem sqrt_fin_of_nonneg {a : ℝ} (ha : 0 ≤ a) : sqrt (fin a) = round32 (Real.sqrt a) := by
  show (if a < 0 then nan else round32 (Real.sqrt a)) = _
  rw [if_neg (not_lt.mpr ha)]

theorem add_exact {a b : ℝ} (h : isFloat32 (a + b)) : fin a + fin b = fin (a + b) := h
theorem sub_exact {a b : ℝ} (h : isFloat32 (a - b)) : fin a - fin b = fin (a - b) := h
theorem mul_exact {a b : ℝ} (h : isFloat32 (a * b)) : fin a * fin b = fin (a * b) := h

theorem div_exact {a b : ℝ} (hb : b ≠ 0) (h : isFloat32 (a / b)) : fin a / fin b = fin (a / b) := by
  rw [fin_div_fin_of_ne a hb]
  exact h

end float

theorem isFloat32_zero : isFloat32 0 := round32_zero

/-- The literal `0.4f`. -/
theorem round32_literal : round32 0.4 = float.fin speed32 := by
  have h := round32_eq 0.4 (-2) (-25) 13421773 (by norm_num [abs_of_pos])
    (by norm_num [abs_of_pos]) (by decide)
    (by rw [abs_lt]; constructor <;> norm_num) (by rw [abs_lt]; constructor <;> norm_num)
  rw [h]
  unfold speed32
  congr 1
  norm_num

theorem isFloat32_speed32 : isFloat32 speed32 := by
  have h := isFloat32_mul_zpow 13421773 (-25) (by norm_num) (by norm_num) (by norm_num)
  have e : ((13421773 : ℤ) : ℝ) * 2 ^ (-25 : ℤ) = speed32 := by
    unfold speed32
    norm_num
  rwa [e] at h

theorem sumsq_nonneg (a b c : ℝ) : 0 ≤ a * a + b * b + c * c := by
  nlinarith [mul_self_nonneg a, mul_self_nonneg b, mul_self_nonneg c]

theorem sumsq_eq_zero_iff (a b c : ℝ) : a * a + b * b + c * c = 0 ↔ a = 0 ∧ b = 0 ∧ c = 0 := by
  constructor
  · intro h
    have ha : a * a = 0 := by nlinarith [mul_self_nonneg a, mul_self_nonneg b, mul_self_nonneg c]
    have hb : b * b = 0 := by nlinarith [mul_self_nonneg a, mul_self_nonneg b, mul_self_nonneg c]
    have hc : c * c = 0 := by nlinarith [mul_self_nonneg a, mul_self_nonneg b, mul_self_nonneg c]
    exact ⟨mul_self_eq_zero.mp ha, mul_self_eq_zero.mp hb, mul_self_eq_zero.mp hc⟩
  · rintro ⟨rfl, rfl, rfl⟩
    ring

theorem magnitude_eq_zero_iff (dx dy dz : ℝ) :
    magnitude dx dy dz = 0 ↔ dx = 0 ∧ dy = 0 ∧ dz = 0 := by
  unfold magnitude
  rw [Real.sqrt_eq_zero (sumsq_nonneg _ _ _), sumsq_eq_zero_iff]

/-- The function `updateEnemy` divides by `divisor`. -/
theorem updateEnemy_eq_divisor (e : Enemy) (camera_pos : vec4) (timeElapsed : float) :
    updateEnemy e camera_pos timeElapsed
      = if !e.fixed then
          { e with pos := e.pos + (camera_pos - e.pos) / divisor e.pos camera_pos
              * round32 0.4 * timeElapsed }
        else e := rfl

/-- The divisor when the differences of the spatial coordinates and the
magnitude are computed without rounding. -/
theorem divisor_exact (px py pz cx cy cz : ℝ) (pw cw : float)
    (hx : isFloat32 (cx - px)) (hy : isFloat32 (cy - py)) (hz : isFloat32 (cz - pz))
    (hn : ExactNorm (cx - px) (cy - py) (cz - pz)) :
    divisor ⟨.fin px, .fin py, .fin pz, pw⟩ ⟨.fin cx, .fin cy, .fin cz, cw⟩
      = float.fin (magnitude (cx - px) (cy - py) (cz - pz)) := by
  obtain ⟨h1, h2, h3, h4, h5, h6⟩ := hn
  show float.sqrt ((float.fin cx - float.fin px) * (float.fin cx - float.fin px)
    + (float.fin cy - float.fin py) * (float.fin cy - float.fin py)
    + (float.fin cz - float.fin pz) * (float.fin cz - float.fin pz)) = _
  rw [float.sub_exact hx, float.sub_exact hy, float.sub_exact hz, float.mul_exact h1,
    float.mul_exact h2, float.mul_exact h3, float.add_exact h4, float.add_exact h5,
    float.sqrt_fin_of_nonneg (sumsq_nonneg _ _ _)]
  exact h6

/-- The entity after `updateEnemy`, for a non-fixed entity at a finite spatial
position, when the differences of the spatial coordinates and the magnitude are
computed without rounding. -/
theorem updateEnemy_of_exactNorm (px py pz cx cy cz : ℝ) (pw cw t : float)
    (hx : isFloat32 (cx - px)) (hy : isFloat32 (cy - py)) (hz : isFloat32 (cz - pz))
    (hn : ExactNorm (cx - px) (cy - py) (cz - pz)) :
    updateEnemy ⟨⟨.fin px, .fin py, .fin pz, pw⟩, false⟩ ⟨.fin cx, .fin cy, .fin cz, cw⟩ t
      = ⟨⟨float.fin px + float.fin (cx - px)
              / float.fin (magnitude (cx - px) (cy - py) (cz - pz)) * float.fin speed32 * t,
          float.fin py + float.fin (cy - py)
              / float.fin (magnitude (cx - px) (cy - py) (cz - pz)) * float.fin speed32 * t,
          float.fin pz + float.fin (cz - pz)
              / float.fin (magnitude (cx - px) (cy - py) (cz - pz)) * float.fin speed32 * t,
          pw + (cw - pw)
              / float.fin (magnitude (cx - px) (cy - py) (cz - pz)) * float.fin speed32 * t⟩,
        false⟩ := by
  rw [updateEnemy_eq_divisor, divisor_exact px py pz cx cy cz pw cw hx hy hz hn, round32_literal]
  show Enemy.mk (vec4.mk
      (float.fin px + (float.fin cx - float.fin px)
        / float.fin (magnitude (cx - px) (cy - py) (cz - pz)) * float.fin speed32 * t)
      (float.fin py + (float.fin cy - float.fin py)
        / float.fin (magnitude (cx - px) (cy - py) (cz - pz)) * float.fin speed32 * t)
      (float.fin pz + (float.fin cz - float.fin pz)
        / float.fin (magnitude (cx - px) (cy - py) (cz - pz)) * float.fin speed32 * t)
      (pw + (cw - pw)
        / float.fin (magnitude (cx - px) (cy - py) (cz - pz)) * float.fin speed32 * t)) false = _
  rw [float.sub_exact hx, float.sub_exact hy, float.sub_exact hz]

/-- A displacement computed without rounding. -/
theorem delta_exact {d m t : ℝ} (hm : m ≠ 0) (h : ExactDelta d m t) :
    float.fin d / float.fin m * float.fin speed32 * float.fin t
      = float.fin (d / m * speed32 * t) := by
  obtain ⟨h1, h2, h3⟩ := h
  rw [float.div_exact hm h1, float.mul_exact h2, float.mul_exact h3]

theorem magnitude_zero : magnitude 0 0 0 = 0 :=
  (magnitude_eq_zero_iff 0 0 0).mpr ⟨rfl, rfl, rfl⟩

theorem exactNorm_zero : ExactNorm 0 0 0 := by
  unfold ExactNorm
  rw [magnitude_zero]
  simp [isFloat32_zero]

/-- Coincident spatial positions: the divisor of `updateEnemy` is zero. -/
theorem divisor_of_eq (px py pz : ℝ) (pw cw : float) :
    divisor ⟨.fin px, .fin py, .fin pz, pw⟩ ⟨.fin px, .fin py, .fin pz, cw⟩ = float.fin 0 := by
  have h := divisor_exact px py pz px py pz pw cw (by rw [sub_self]; exact isFloat32_zero)
    (by rw [sub_self]; exact isFloat32_zero) (by rw [sub_self]; exact isFloat32_zero)
    (by simp only [sub_self]; exact exactNorm_zero)
  simp only [sub_self, magnitude_zero] at h
  exact h

/-- A non-fixed entity at a finite position that coincides with the finite
camera position: every component of the position after `updateEnemy` is NaN. -/
theorem updateEnemy_degenerate (px py pz pw : ℝ) (t : float) :
    updateEnemy ⟨vec4.ofReal px py pz pw, false⟩ (vec4.ofReal px py pz pw) t
      = ⟨⟨float.nan, float.nan, float.nan, float.nan⟩, false⟩ := by
  have h := updateEnemy_of_exactNorm px py pz px py pz (float.fin pw) (float.fin pw) t
    (by rw [sub_self]; exact isFloat32_zero) (by rw [sub_self]; exact isFloat32_zero)
    (by rw [sub_self]; exact isFloat32_zero) (by simp only [sub_self]; exact exactNorm_zero)
  simp only [sub_self, magnitude_zero] at h
  rw [show vec4.ofReal px py pz pw = ⟨.fin px, .fin py, .fin pz, .fin pw⟩ from rfl, h,
    float.fin_sub_fin, sub_self, round32_zero, float.zero_div_zero]
  simp only [float.nan_mul, float.add_nan]

/-! ## Steps along the first axis -/

/-- A binary32 value, given by its significand and exponent. -/
theorem isFloat32_of_eq (m e : ℤ) (r : ℝ) (hr : r = (m : ℝ) * 2 ^ e) (hm : |m| < 2 ^ 24)
    (he : -149 ≤ e) (he2 : e ≤ 104) : isFloat32 r := by
  rw [hr]
  exact isFloat32_mul_zpow m e hm he he2

theorem isFloat32_one : isFloat32 1 :=
  isFloat32_of_eq 1 0 1 (by norm_num) (by norm_num) (by norm_num) (by norm_num)

theorem magnitude_axis {d : ℝ} (hd : 0 ≤ d) : magnitude d 0 0 = d := by
  unfold magnitude
  rw [show d * d + 0 * 0 + 0 * 0 = d * d by ring]
  exact Real.sqrt_mul_self hd

theorem exactNorm_axis {d : ℝ} (hd : 0 ≤ d) (h1 : isFloat32 d) (h2 : isFloat32 (d * d)) :
    ExactNorm d 0 0 := by
  unfold ExactNorm
  rw [magnitude_axis hd]
  simp only [mul_zero, add_zero]
  exact ⟨h2, isFloat32_zero, isFloat32_zero, h2, h2, h1⟩

theorem exactDelta_zero (m t : ℝ) : ExactDelta 0 m t := by
  unfold ExactDelta
  simp only [zero_div, zero_mul]
  exact ⟨isFloat32_zero, isFloat32_zero, isFloat32_zero⟩

theorem exactCoord_same {y : ℝ} (m t : ℝ) (hy : isFloat32 y) : ExactCoord y y m t := by
  unfold ExactCoord
  rw [sub_self]
  refine ⟨isFloat32_zero, exactDelta_zero m t, ?_⟩
  simp only [zero_div, zero_mul, add_zero]
  exact hy

theorem exactDelta_axis {d t : ℝ} (hd : 0 < d) (h : isFloat32 (speed32 * t)) :
    ExactDelta d d t := by
  unfold ExactDelta
  rw [div_self hd.ne.symm, one_mul]
  exact ⟨isFloat32_one, isFloat32_speed32, h⟩

/-- A step along the first axis towards a larger coordinate: the operations
on which its exactness depends. -/
theorem exactStep_axis {px cx y z t : ℝ} (hd : 0 < cx - px) (hy : isFloat32 y)
    (hz : isFloat32 z) (h1 : isFloat32 (cx - px)) (h2 : isFloat32 ((cx - px) * (cx - px)))
    (h3 : isFloat32 (speed32 * t)) (h4 : isFloat32 (px + speed32 * t)) :
    ExactStep px y z cx y z t := by
  unfold ExactStep
  simp only [sub_self]
  rw [magnitude_axis hd.le]
  refine ⟨exactNorm_axis hd.le h1 h2, ⟨h1, exactDelta_axis hd h3, ?_⟩, exactCoord_same _ _ hy,
    exactCoord_same _ _ hz⟩
  rw [div_self hd.ne.symm, one_mul]
  exact h4

/-- The entity after `updateEnemy` for a step along the first axis towards a
larger coordinate, when only the final addition may round. -/
theorem updateEnemy_axis (px cx y z t : ℝ) (pw cw : float) (hd : 0 < cx - px)
    (hy : isFloat32 y) (hz : isFloat32 z) (h1 : isFloat32 (cx - px))
    (h2 : isFloat32 ((cx - px) * (cx - px))) (h3 : isFloat32 (speed32 * t)) :
    updateEnemy ⟨⟨.fin px, .fin y, .fin z, pw⟩, false⟩ ⟨.fin cx, .fin y, .fin z, cw⟩
        (float.fin t)
      = ⟨⟨round32 (px + speed32 * t), float.fin y, float.fin z,
          pw + (cw - pw) / float.fin (cx - px) * float.fin speed32 * float.fin t⟩, false⟩ := by
  have h := updateEnemy_of_exactNorm px y z cx y z pw cw (float.fin t) h1
    (by rw [sub_self]; exact isFloat32_zero) (by rw [sub_self]; exact isFloat32_zero)
    (by simp only [sub_self]; exact exactNorm_axis hd.le h1 h2)
  simp only [sub_self] at h
  rw [magnitude_axis hd.le] at h
  rw [h, delta_exact hd.ne.symm (exactDelta_axis hd h3),
    delta_exact hd.ne.symm (exactDelta_zero (cx - px) t)]
  simp only [div_self hd.ne.symm, one_mul, zero_div, zero_mul, float.fin_add_fin, add_zero]
  rw [show round32 y = float.fin y from hy, show round32 z = float.fin z from hz]

/-- The fourth component when the camera and the entity have the same finite
`w`, a binary32 value, and the divisor is a finite number other than zero. -/
theorem w_same (w m t : ℝ) (hw : isFloat32 w) (hm : m ≠ 0) :
    float.fin w + (float.fin w - float.fin w) / float.fin m * float.fin speed32 * float.fin t
      = float.fin w := by
  rw [float.fin_sub_fin, sub_self, round32_zero, float.fin_div_fin_of_ne 0 hm, zero_div,
    round32_zero, float.fin_mul_fin, zero_mul, round32_zero, float.fin_mul_fin, zero_mul,
    round32_zero, float.fin_add_fin, add_zero]
  exact hw

/-- The value of `round32 r`, from bounds without absolute values. -/
theorem round32_val (r v : ℝ) (k E n : ℤ) (hlo : (2 : ℝ) ^ k ≤ r ∨ (2 : ℝ) ^ k ≤ -r)
    (hhi1 : -(2 : ℝ) ^ (k + 1) < r) (hhi2 : r < (2 : ℝ) ^ (k + 1))
    (hE : max (k - 23) (-149) = E) (hn1 : (n : ℝ) - 1 / 2 < r / 2 ^ E)
    (hn2 : r / 2 ^ E < (n : ℝ) + 1 / 2) (hv : (n : ℝ) * 2 ^ E = v)
    (hf1 : -(2 : ℝ) ^ (128 : ℤ) < v) (hf2 : v < (2 : ℝ) ^ (128 : ℤ)) :
    round32 r = float.fin v := by
  rw [← hv] at hf1 hf2 ⊢
  refine round32_eq r k E n ?_ (abs_lt.mpr ⟨hhi1, hhi2⟩) hE
    (abs_lt.mpr ⟨by linarith, by linarith⟩) (abs_lt.mpr ⟨hf1, hf2⟩)
  rcases hlo with h | h
  · exact h.trans (le_abs_self r)
  · exact h.trans (neg_le_abs r)

theorem round32_cases (r : ℝ) :
    (∃ v : ℝ, round32 r = float.fin v) ∨ (∃ s : Bool, round32 r = float.inf s) := by
  unfold round32
  split_ifs
  · exact Or.inr ⟨_, rfl⟩
  · exact Or.inl ⟨_, rfl⟩

/-- The square of a rounded number is a finite number that is not negative, or
the positive infinity. -/
theorem round32_mul_self_nonneg (r : ℝ) :
    (∃ v : ℝ, 0 ≤ v ∧ round32 r * round32 r = float.fin v)
      ∨ round32 r * round32 r = float.inf false := by
  rcases round32_cases r with ⟨v, hv⟩ | ⟨s, hs⟩
  · rw [hv, float.fin_mul_fin]
    exact round32_nonneg _ (mul_self_nonneg v)
  · rw [hs]
    right
    show float.inf (xor s s) = float.inf false
    rw [Bool.xor_self]

theorem add_nonneg_float {a b : float}
    (ha : (∃ v : ℝ, 0 ≤ v ∧ a = float.fin v) ∨ a = float.inf false)
    (hb : (∃ v : ℝ, 0 ≤ v ∧ b = float.fin v) ∨ b = float.inf false) :
    (∃ v : ℝ, 0 ≤ v ∧ a + b = float.fin v) ∨ a + b = float.inf false := by
  rcases ha with ⟨u, hu, rfl⟩ | rfl <;> rcases hb with ⟨v, hv, rfl⟩ | rfl
  · rw [float.fin_add_fin]
    exact round32_nonneg _ (add_nonneg hu hv)
  · exact Or.inr rfl
  · exact Or.inr rfl
  · exact Or.inr rfl

theorem sqrt_nonneg_float {a : float}
    (ha : (∃ v : ℝ, 0 ≤ v ∧ a = float.fin v) ∨ a = float.inf false) :
    (∃ v : ℝ, 0 ≤ v ∧ float.sqrt a = float.fin v) ∨ float.sqrt a = float.inf false := by
  rcases ha with ⟨u, hu, rfl⟩ | rfl
  · rw [float.sqrt_fin_of_nonneg hu]
    exact round32_nonneg _ (Real.sqrt_nonneg u)
  · exact Or.inr rfl

/-- The divisor of `updateEnemy` at finite spatial positions is a finite number
that is not negative, or the positive infinity; it is never NaN. -/
theorem divisor_nonneg (px py pz cx cy cz : ℝ) (pw cw : float) :
    (∃ v : ℝ, 0 ≤ v
        ∧ divisor ⟨.fin px, .fin py, .fin pz, pw⟩ ⟨.fin cx, .fin cy, .fin cz, cw⟩ = float.fin v)
      ∨ divisor ⟨.fin px, .fin py, .fin pz, pw⟩ ⟨.fin cx, .fin cy, .fin cz, cw⟩
        = float.inf false :=
  sqrt_nonneg_float (add_nonneg_float (add_nonneg_float (round32_mul_self_nonneg (cx - px))
    (round32_mul_self_nonneg (cy - py))) (round32_mul_self_nonneg (cz - pz)))

/-- The fourth component when the camera and the entity have the same finite
`w`, a binary32 value, and the divisor is not zero. -/
theorem w_same_of_divisor (w t : ℝ) (V : float) (hw : isFloat32 w)
    (hV : (∃ v : ℝ, 0 ≤ v ∧ V = float.fin v) ∨ V = float.inf false) (h0 : V ≠ float.fin 0) :
    float.fin w + (float.fin w - float.fin w) / V * round32 0.4 * float.fin t = float.fin w := by
  rw [round32_literal]
  rcases hV with ⟨v, _, rfl⟩ | rfl
  · exact w_same w v t hw (fun h => h0 (by rw [h]))
  · rw [float.fin_sub_fin, sub_self, round32_zero, float.fin_div_inf, float.fin_mul_fin,
      zero_mul, round32_zero, float.fin_mul_fin, zero_mul, round32_zero, float.fin_add_fin,
      add_zero]
    exact hw

/-! ## Concrete steps used by the examples -/

/-- The entity at `(0,0,0)` with the camera at `(10,0,0)` and one second elapsed:
every operation of the step is exact. -/
theorem exactStep_scenario1 : ExactStep 0 0 0 10 0 0 1 :=
  exactStep_axis (by norm_num) isFloat32_zero isFloat32_zero
    (isFloat32_of_eq 10 0 _ (by norm_num) (by norm_num) (by norm_num) (by norm_num))
    (isFloat32_of_eq 100 0 _ (by norm_num) (by norm_num) (by norm_num) (by norm_num))
    (by rw [mul_one]; exact isFloat32_speed32)
    (by rw [mul_one, zero_add]; exact isFloat32_speed32)

theorem magnitude_10_0_0 : magnitude (10 - 0) (0 - 0) (0 - 0) = 10 := by
  rw [sub_zero, sub_zero]
  exact magnitude_axis (by norm_num)

/-- C1 (immovability, P1): for every entity with `fixed = true`, every camera
position and every elapsed time, `updateEnemy` leaves the position of the
entity unchanged in all of its components. -/
theorem updateEnemy_fixed_pos (e : Enemy) (camera_pos : vec4) (timeElapsed : float)
    (h : e.fixed = true) : (updateEnemy e camera_pos timeElapsed).pos = e.pos := by
  unfold updateEnemy
  simp [h]

/-- Scenario 2 of the specification: the fixed entity at `(0,0,0)` with the
target `(10,0,0)` and one second elapsed stays at `(0,0,0)`. -/
theorem updateEnemy_fixed_pos_witness :
    (Enemy.mk (vec4.ofReal 0 0 0 1) true).fixed = true
      ∧ (updateEnemy ⟨vec4.ofReal 0 0 0 1, true⟩ (vec4.ofReal 10 0 0 1) (float.fin 1)).pos
          = vec4.ofReal 0 0 0 1 :=
  ⟨rfl, updateEnemy_fixed_pos ⟨vec4.ofReal 0 0 0 1, true⟩ (vec4.ofReal 10 0 0 1) (float.fin 1) rfl⟩

/-- C5, as stated, fails: the non-fixed entity at `(0,0,0)` with `w = 0` and
the camera at `(10,0,0)` with `w = 1`, one second elapsed: the fourth component
of the position becomes `10737419 / 268435456`, about `0.04`. -/
theorem updateEnemy_w_changed :
    (updateEnemy ⟨vec4.ofReal 0 0 0 0, false⟩ (vec4.ofReal 10 0 0 1) (float.fin 1)).pos.w
        = float.fin (10737419 / 268435456)
      ∧ (updateEnemy ⟨vec4.ofReal 0 0 0 0, false⟩ (vec4.ofReal 10 0 0 1) (float.fin 1)).pos.w
        ≠ (Enemy.mk (vec4.ofReal 0 0 0 0) false).pos.w := by
  have h := updateEnemy_axis 0 10 0 0 1
    (float.fin 0) (float.fin 1) (by norm_num) isFloat32_zero isFloat32_zero
    (isFloat32_of_eq 10 0 _ (by norm_num) (by norm_num) (by norm_num) (by norm_num))
    (isFloat32_of_eq 100 0 _ (by norm_num) (by norm_num) (by norm_num) (by norm_num))
    (by rw [mul_one]; exact isFloat32_speed32)
  have hw : (updateEnemy ⟨vec4.ofReal 0 0 0 0, false⟩ (vec4.ofReal 10 0 0 1)
      (float.fin 1)).pos.w = float.fin (10737419 / 268435456) := by
    show (updateEnemy ⟨⟨.fin 0, .fin 0, .fin 0, .fin 0⟩, false⟩ ⟨.fin 10, .fin 0, .fin 0, .fin 1⟩
      (float.fin 1)).pos.w = _
    rw [h]
    show float.fin 0 + (float.fin 1 - float.fin 0) / float.fin (10 - 0) * float.fin speed32
      * float.fin 1 = _
    have d : float.fin 1 - float.fin 0 = float.fin 1 := by
      rw [float.fin_sub_fin, sub_zero]
      exact isFloat32_one
    have q : float.fin 1 / float.fin (10 - 0) = float.fin (13421773 / 134217728) := by
      rw [float.fin_div_fin_of_ne _ (by norm_num)]
      exact round32_val _ _ (-4) (-27) 13421773 (by left; norm_num) (by norm_num)
        (by norm_num) (by decide) (by norm_num) (by norm_num) (by norm_num) (by norm_num)
        (by norm_num)
    have qs : float.fin (13421773 / 134217728) * float.fin speed32
        = float.fin (10737419 / 268435456) := by
      rw [float.fin_mul_fin]
      unfold speed32
      exact round32_val _ _ (-5) (-28) 10737419 (by left; norm_num) (by norm_num)
        (by norm_num) (by decide) (by norm_num) (by norm_num) (by norm_num) (by norm_num)
        (by norm_num)
    have v : isFloat32 (10737419 / 268435456) :=
      isFloat32_of_eq 10737419 (-28) _ (by norm_num) (by norm_num) (by norm_num) (by norm_num)
    rw [d, q, qs, float.fin_mul_fin, mul_one, show round32 (10737419 / 268435456) = _ from v,
      float.fin_add_fin, zero_add]
    exact v
  refine ⟨hw, ?_⟩
  rw [hw]
  show float.fin (10737419 / 268435456) ≠ float.fin 0
  intro h'
  have h2 : (10737419 / 268435456 : ℝ) = 0 := float.fin.inj h'
  norm_num at h2

/-- C5, amended: for every entity that is fixed, whatever its position, the
camera position and the elapsed time, and for every non-fixed entity at a
finite position with a finite camera position and elapsed time whose `w` is
the binary32 value of the camera's `w`, provided the divisor computed by the
code is not zero, the fourth component of the position after `updateEnemy`
equals the one before. -/
theorem updateEnemy_w_unchanged :
    (∀ (e : Enemy) (camera_pos : vec4) (timeElapsed : float), e.fixed = true →
      (updateEnemy e camera_pos timeElapsed).pos.w = e.pos.w)
    ∧ (∀ px py pz cx cy cz w t : ℝ, isFloat32 w →
      divisor ⟨.fin px, .fin py, .fin pz, .fin w⟩ ⟨.fin cx, .fin cy, .fin cz, .fin w⟩
        ≠ float.fin 0 →
      (updateEnemy ⟨⟨.fin px, .fin py, .fin pz, .fin w⟩, false⟩
        ⟨.fin cx, .fin cy, .fin cz, .fin w⟩ (float.fin t)).pos.w = float.fin w) := by
  constructor
  · intro e camera_pos timeElapsed h
    unfold updateEnemy
    simp [h]
  · intro px py pz cx cy cz w t hw h0
    rw [updateEnemy_eq_divisor]
    exact w_same_of_divisor w t _ hw (divisor_nonneg px py pz cx cy cz _ _) h0

/-- The non-fixed entity at `(0,0,0)` with `w = 1` and the camera at
`(10,0,0)` with `w = 1`: the divisor is `10` and the fourth component stays
`1`. -/
theorem updateEnemy_w_unchanged_witness :
    isFloat32 1
      ∧ divisor ⟨.fin 0, .fin 0, .fin 0, .fin 1⟩ ⟨.fin 10, .fin 0, .fin 0, .fin 1⟩ ≠ float.fin 0
      ∧ (updateEnemy ⟨⟨.fin 0, .fin 0, .fin 0, .fin 1⟩, false⟩
          ⟨.fin 10, .fin 0, .fin 0, .fin 1⟩ (float.fin 1)).pos.w = float.fin 1 := by
  have hd : divisor ⟨.fin 0, .fin 0, .fin 0, .fin 1⟩ ⟨.fin 10, .fin 0, .fin 0, .fin 1⟩
      ≠ float.fin 0 := by
    rw [divisor_exact 0 0 0 10 0 0 (float.fin 1) (float.fin 1) exactStep_scenario1.2.1.1
      exactStep_scenario1.2.2.1.1 exactStep_scenario1.2.2.2.1 exactStep_scenario1.1,
      magnitude_10_0_0]
    intro h
    have h2 : (10 : ℝ) = 0 := float.fin.inj h
    norm_num at h2
  exact ⟨isFloat32_one, hd, updateEnemy_w_unchanged.2 0 0 0 10 0 0 1 1 isFloat32_one hd⟩

/-- C6 fails at the non-fixed entity at `(5,5,5)` with the camera at `(5,5,5)`
and elapsed time `0`: the code divides by the zero magnitude and every
component of the position after `updateEnemy` is non-finite, where the position
before was `(5,5,5)`. -/
theorem updateEnemy_zero_time_degenerate :
    (updateEnemy ⟨vec4.ofReal 5 5 5 1, false⟩ (vec4.ofReal 5 5 5 1) (float.fin 0)).pos
        = ⟨float.nan, float.nan, float.nan, float.nan⟩
      ∧ (updateEnemy ⟨vec4.ofReal 5 5 5 1, false⟩ (vec4.ofReal 5 5 5 1) (float.fin 0)).pos
        ≠ (Enemy.mk (vec4.ofReal 5 5 5 1) false).pos := by
  rw [updateEnemy_degenerate 5 5 5 1 (float.fin 0)]
  refine ⟨rfl, ?_⟩
  intro h
  have hx : float.nan = float.fin 5 := congrArg vec4.x h
  exact float.noConfusion hx

/-- C7 fails at scenario 4 of the specification, the non-fixed entity at
`(5,5,5)` with the camera at `(5,5,5)` and elapsed time `1.0`: the divisor is
zero, the code divides by it without a guard, and every component of the
position after `updateEnemy` is non-finite. -/
theorem updateEnemy_degenerate_scenario :
    divisor (vec4.ofReal 5 5 5 1) (vec4.ofReal 5 5 5 1) = float.fin 0
      ∧ (updateEnemy ⟨vec4.ofReal 5 5 5 1, false⟩ (vec4.ofReal 5 5 5 1) (float.fin 1)).pos
        = ⟨float.nan, float.nan, float.nan, float.nan⟩ := by
  refine ⟨divisor_of_eq 5 5 5 (float.fin 1) (float.fin 1), ?_⟩
  rw [updateEnemy_degenerate 5 5 5 1 (float.fin 1)]

/-- C9 (frame): for every entity, camera position and elapsed time,
`updateEnemy` leaves the `fixed` flag of the entity unchanged; the entity after
the call is the entity before it with the position replaced. -/
theorem updateEnemy_frame (e : Enemy) (camera_pos : vec4) (timeElapsed : float) :
    (updateEnemy e camera_pos timeElapsed).fixed = e.fixed
      ∧ updateEnemy e camera_pos timeElapsed
          = { e with pos := (updateEnemy e camera_pos timeElapsed).pos } := by
  cases e with
  | mk pos fixed => cases fixed <;> exact ⟨rfl, rfl⟩

